import Mathlib

/-!
Verification of the defensive-metrics dashboard data pipeline
(`streamlit_app.py`).

The program loads a season CSV into a pandas DataFrame, derives a
`disagreement_index` column (population standard deviation across the
percentile columns present in the file and non-null in the row), filters by
team, resolves a selected player row, computes the best/worst percentile
metric for that player via Python `max`/`min` with a key function, and builds
a top-N leaderboard by sorting descending on a chosen percentile metric.

Embedding notes:
* Percentile cell values are modelled as `Option ℚ` (pandas NaN = `none`).
* `disagreement_index` is `Real.sqrt` of a rational population variance; rows
  store the (rational, exactly computable) variance `diSq`, and theorem
  statements apply `Real.sqrt` where the displayed standard deviation is
  meant.
* pandas `DataFrame.sort_values(col, ascending=False)` is implemented (in
  `pandas.core.sorting.nargsort`) by first reversing the values and the index
  array, taking an ascending `argsort` of the reversed values, and then
  reversing the resulting indexer again (`indexer = indexer[::-1]`) — a
  double reversal that makes the descending sort stable (pandas GH #6399,
  regression-tested by `test_sort_values_stable_descending_sort`).  numpy's
  default `quicksort` (introsort) runs plain insertion sort — which is
  stable — on arrays below its partition cutoff, so the ascending pass is
  the stable ascending order.  We model the descending sort accordingly as
  `reverse ∘ (stable ascending sort) ∘ reverse`, which keeps tied rows in
  their encounter order.
-/

namespace DefMetrics

/-- The six defensive metrics, in the canonical order of `PCT_METRICS`
(source lines 21–28). -/
inductive Metric where
  | oaa   -- outs_above_average
  | rdrs  -- Rdrs (DRS)
  | rtot  -- Rtot (Total Zone)
  | drp   -- DRP
  | fld   -- Fld% (Fielding %)
  | frv   -- FRV
deriving DecidableEq, Repr

/-- `PCT_METRICS` (source lines 21–28): the percentile columns in canonical
order. -/
def PCT_METRICS : List Metric :=
  [Metric.oaa, Metric.rdrs, Metric.rtot, Metric.drp, Metric.fld, Metric.frv]

/-- One CSV row: identity fields plus the six percentile cells (a pandas NaN
cell is `none`).  Raw-metric and context columns are not consulted by the
logic under verification and are omitted. -/
structure Row where
  player : String
  team : String
  oaaPct : Option ℚ
  rdrsPct : Option ℚ
  rtotPct : Option ℚ
  drpPct : Option ℚ
  fldPct : Option ℚ
  frvPct : Option ℚ
deriving DecidableEq, Repr

/-- Cell lookup `row[m]` for a percentile column. -/
def Row.pct (r : Row) : Metric → Option ℚ
  | Metric.oaa => r.oaaPct
  | Metric.rdrs => r.rdrsPct
  | Metric.rtot => r.rtotPct
  | Metric.drp => r.drpPct
  | Metric.fld => r.fldPct
  | Metric.frv => r.frvPct

/-- A parsed CSV file: which percentile columns are present in the file
(`df.columns`), and the rows. -/
structure Table where
  cols : List Metric
  rows : List Row

/-- Arithmetic mean used by pandas `std`. -/
def popMean (xs : List ℚ) : ℚ := xs.sum / xs.length

/-- The square of pandas `Series.std(ddof=0)` over the non-null values of a
row (source line 58): population variance `Σ (x - mean)² / n`; `none` when no
values are present (pandas returns NaN there). -/
def pandasVarP (xs : List ℚ) : Option ℚ :=
  if xs = [] then none
  else some ((xs.map (fun x => (x - popMean xs) ^ 2)).sum / xs.length)

/-- `existing_pct` (source line 57): the percentile columns of `PCT_METRICS`
actually present in the file, in canonical order. -/
def existing_pct (cols : List Metric) : List Metric :=
  PCT_METRICS.filter (fun m => cols.contains m)

/-- The non-null values, for one row, of the percentile columns present in
the file — exactly what `df[existing_pct].std(axis=1, ddof=0)` aggregates
(pandas skips NaN row-wise). -/
def rowPctVals (cols : List Metric) (r : Row) : List ℚ :=
  (existing_pct cols).filterMap r.pct

/-- A loaded row: the source row plus the derived `disagreement_index`,
stored as its square `diSq` (the displayed value is `Real.sqrt` of it). -/
structure LRow where
  row : Row
  diSq : Option ℚ
deriving DecidableEq, Repr

/-- One row of `load_df` (source lines 53–59). -/
def loadRow (cols : List Metric) (r : Row) : LRow :=
  ⟨r, pandasVarP (rowPctVals cols r)⟩

/-- `load_df` (source lines 53–59): parse result plus the derived
`disagreement_index` column. -/
def load_df (t : Table) : List LRow :=
  t.rows.map (loadRow t.cols)

/-- The `@st.cache_data` memoisation on `load_df` (source line 53): an
explicit cache keyed by the csv path string. -/
def load_cached (files : String → Table) (cache : List (String × List LRow))
    (k : String) : List LRow × List (String × List LRow) :=
  match cache.lookup k with
  | some v => (v, cache)
  | none => (load_df (files k), (k, load_df (files k)) :: cache)

/-- Team filtering (source lines 65 and 159):
`df if team == "(All)" else df[df["Team"] == team]`. -/
def filterByTeam (rows : List LRow) (z : String) : List LRow :=
  if z = "(All)" then rows else rows.filter (fun r => r.row.team == z)

/-- `player_pct_cols` (source line 72): the percentile metrics whose column
is present in the file and whose value is non-null for the row, in canonical
order. -/
def player_pct_cols (cols : List Metric) (r : Row) : List Metric :=
  PCT_METRICS.filter (fun m => cols.contains m && (r.pct m).isSome)

/-- The key function `lambda m: row[m]` (source lines 84–85); on the metrics
of `player_pct_cols` the cell is guaranteed non-null, `getD` only totalises. -/
def keyOf (r : Row) (m : Metric) : ℚ := (r.pct m).getD 0

/-- The accumulator step of Python `max` with a key: replace the current
best only on a strict improvement, so the first maximum encountered wins. -/
def maxStep (key : α → ℚ) (b a : α) : α := if key b < key a then a else b

/-- The accumulator step of Python `min` with a key: replace the current
best only on a strict improvement, so the first minimum encountered wins. -/
def minStep (key : α → ℚ) (b a : α) : α := if key a < key b then a else b

/-- Python `max(xs, key=key)`: a left scan with `maxStep`. -/
def pyMax (key : Metric → ℚ) : List Metric → Option Metric
  | [] => none
  | x :: xs => some (xs.foldl (maxStep key) x)

/-- Python `min(xs, key=key)`: a left scan with `minStep`. -/
def pyMin (key : Metric → ℚ) : List Metric → Option Metric
  | [] => none
  | x :: xs => some (xs.foldl (minStep key) x)

/-- `best` (source line 84). -/
def bestMetric (r : Row) (avail : List Metric) : Option Metric :=
  pyMax (keyOf r) avail

/-- `worst` (source line 85). -/
def worstMetric (r : Row) (avail : List Metric) : Option Metric :=
  pyMin (keyOf r) avail

/-- Player resolution (source line 69):
`candidates[candidates["Player"] == player].iloc[0]`; `none` models the
IndexError on an empty selection (spec: `PlayerNotFound`). -/
def resolvePlayer (rows : List LRow) (name : String) : Option LRow :=
  (rows.filter (fun r => r.row.player == name)).head?

/-- The player selector options (source line 66):
`sorted(candidates["Player"].astype(str).unique())`.  (`List.dedup` keeps a
different duplicate occurrence than pandas `unique`, but the result is sorted
and duplicate-free either way, and only membership matters downstream.) -/
def playerOptions (rows : List LRow) : List String :=
  List.insertionSort (· ≤ ·) (rows.map (fun r => r.row.player)).dedup

/-- pandas `sort_values(m, ascending=False)` (source line 164): reverse the
frame, ascending stable argsort, reverse the indexer again (see the header
note) — a stable descending sort. -/
def sortValuesDesc (m : Metric) (rows : List LRow) : List LRow :=
  (List.insertionSort (fun a b => keyOf a.row m ≤ keyOf b.row m)
    rows.reverse).reverse

/-- The leaderboard (source lines 159–168): team filter, drop rows null in
the sort metric, sort descending, truncate to `n`.  (The subsequent column
selection and rename are presentational.) -/
def leaderboard (rows : List LRow) (z : String) (m : Metric) (n : Nat) :
    List LRow :=
  (sortValuesDesc m
    ((filterByTeam rows z).filter (fun r => (r.row.pct m).isSome))).take n

/-- Modelled from the spec: "population standard deviation" characterised
independently of the code's formula, via the identity
`Var X = E[X²] − (E[X])²`; the spec's standard deviation is `Real.sqrt` of
this. -/
def specPopVar (xs : List ℚ) : ℚ :=
  (xs.map (fun x => x ^ 2)).sum / xs.length - (xs.sum / xs.length) ^ 2

/-- Example row A of the spec's leaderboard tie example:
(A, TeamX, OAA_pct = 90). -/
def rowA : Row := ⟨"A", "TeamX", some 90, none, none, none, none, none⟩

/-- Example row B of the spec's leaderboard tie example:
(B, TeamX, OAA_pct = 90). -/
def rowB : Row := ⟨"B", "TeamX", some 90, none, none, none, none, none⟩

/-- Example row C of the spec's leaderboard tie example:
(C, TeamY, OAA_pct = 40). -/
def rowC : Row := ⟨"C", "TeamY", some 40, none, none, none, none, none⟩

/-- The spec's leaderboard tie example table, with all six percentile
columns present in the file. -/
def exTable : Table := ⟨PCT_METRICS, [rowA, rowB, rowC]⟩

/-- Row A packaged with an explicit derived column (each example row has a
single non-null percentile, so its population variance is 0). -/
def lrA : LRow := ⟨rowA, some 0⟩

/-- Row B packaged with an explicit derived column. -/
def lrB : LRow := ⟨rowB, some 0⟩

/-- Row C packaged with an explicit derived column. -/
def lrC : LRow := ⟨rowC, some 0⟩

/-- A concrete loaded table used to instantiate the general theorems. -/
def exL : List LRow := [lrA, lrB, lrC]

/-- A one-row loaded table used to instantiate the general theorems. -/
def exL1 : List LRow := [lrA]

/-! ### Helper lemmas -/

lemma mem_PCT_METRICS (m : Metric) : m ∈ PCT_METRICS := by
  cases m <;> simp [PCT_METRICS]

lemma mem_player_pct_cols {cols : List Metric} {r : Row} {m : Metric} :
    m ∈ player_pct_cols cols r ↔ m ∈ cols ∧ (r.pct m).isSome := by
  simp [player_pct_cols, List.mem_filter, mem_PCT_METRICS]

lemma mem_filterByTeam_subset {rows : List LRow} {z : String} {r : LRow}
    (h : r ∈ filterByTeam rows z) : r ∈ rows := by
  by_cases hz : z = "(All)"
  · simpa [filterByTeam, hz] using h
  · rw [filterByTeam, if_neg hz] at h
    exact (List.mem_filter.1 h).1

/-! ### Theorems -/

/-- C6: `player_pct_cols` (the embedding of `availablePercentileMetrics`)
returns, in the fixed canonical order of `PCT_METRICS`, exactly the
percentile metrics whose column is present in the file and whose value is
non-null for the record; the empty result is attainable (valid no-data
state). -/
theorem C6_availableMetrics (cols : List Metric) (r : Row) :
    (player_pct_cols cols r).Sublist PCT_METRICS ∧
    (∀ m : Metric, m ∈ player_pct_cols cols r ↔
      m ∈ cols ∧ (r.pct m).isSome) ∧
    ∃ r0 : Row, player_pct_cols cols r0 = [] := by
  refine ⟨List.filter_sublist _, fun m => mem_player_pct_cols, ?_⟩
  refine ⟨⟨"", "", none, none, none, none, none, none⟩, ?_⟩
  simp [player_pct_cols, PCT_METRICS, Row.pct]

/-- C6 witness: on a concrete record whose only present column is OAA with a
non-null value, OAA is available. -/
theorem C6_availableMetrics_witness :
    Metric.oaa ∈ player_pct_cols [Metric.oaa] rowA :=
  ((C6_availableMetrics [Metric.oaa] rowA).2.1 Metric.oaa).mpr (by decide)

/-- C5: team filtering returns the table unchanged for the sentinel
`"(All)"`; for any other team value it returns exactly the rows whose team
equals that value (and a sublist of the input); and every row of the table
is recovered by filtering on some team value present in the table, while
every filtered row comes from the table. -/
theorem C5_filterByTeam (rows : List LRow) :
    filterByTeam rows "(All)" = rows ∧
    (∀ z : String, z ≠ "(All)" →
      ∀ r : LRow, r ∈ filterByTeam rows z ↔ r ∈ rows ∧ r.row.team = z) ∧
    (∀ z : String, (filterByTeam rows z).Sublist rows) ∧
    (∀ r : LRow, r ∈ rows ↔
      ∃ z ∈ rows.map (fun x => x.row.team), r ∈ filterByTeam rows z) := by
  refine ⟨by simp [filterByTeam], ?_, ?_, ?_⟩
  · intro z hz r
    simp [filterByTeam, hz, List.mem_filter]
  · intro z
    by_cases hz : z = "(All)" <;> simp [filterByTeam, hz, List.filter_sublist]
  · intro r
    constructor
    · intro hr
      refine ⟨r.row.team, List.mem_map_of_mem _ hr, ?_⟩
      by_cases hz : r.row.team = "(All)"
      · simp [filterByTeam, hz, hr]
      · simp [filterByTeam, hz, List.mem_filter, hr]
    · rintro ⟨z, _, hmem⟩
      exact mem_filterByTeam_subset hmem

/-- C5 witness: on the concrete example table, filtering on "TeamX" keeps
row A. -/
theorem C5_filterByTeam_witness : lrA ∈ filterByTeam exL "TeamX" :=
  ((C5_filterByTeam exL).2.1 "TeamX" (by decide) lrA).mpr (by decide)

lemma sum_map_sub_sq (xs : List ℚ) (c : ℚ) :
    (xs.map (fun x => (x - c) ^ 2)).sum
      = (xs.map (fun x => x ^ 2)).sum - 2 * c * xs.sum
          + (xs.length : ℚ) * c ^ 2 := by
  induction xs with
  | nil => simp
  | cons a l ih =>
    simp only [List.map_cons, List.sum_cons, ih, List.length_cons]
    push_cast
    ring

lemma pandasVarP_eq_specPopVar (xs : List ℚ) (h : xs ≠ []) :
    pandasVarP xs = some (specPopVar xs) := by
  have hn : (xs.length : ℚ) ≠ 0 := by
    exact_mod_cast fun hl => h (List.length_eq_zero.1 (by exact_mod_cast hl))
  rw [pandasVarP, if_neg h, specPopVar, popMean, sum_map_sub_sq]
  congr 1
  field_simp
  ring

lemma filterMap_pct_eq_map_key (r : Row) (cols : List Metric) :
    ∀ L : List Metric,
      (L.filter (fun m => cols.contains m)).filterMap r.pct
        = (L.filter (fun m => cols.contains m && (r.pct m).isSome)).map
            (keyOf r)
  | [] => by simp
  | m :: L => by
    have ih := filterMap_pct_eq_map_key r cols L
    by_cases hc : m ∈ cols
    · cases hp : r.pct m with
      | none => simpa [List.filter_cons, hc, hp] using ih
      | some v => simpa [List.filter_cons, hc, hp, keyOf] using ih
    · simpa [List.filter_cons, hc] using ih

lemma rowPctVals_eq_map_key (cols : List Metric) (r : Row) :
    rowPctVals cols r = (player_pct_cols cols r).map (keyOf r) :=
  filterMap_pct_eq_map_key r cols PCT_METRICS

/-- C1: for every loaded row, the derived `disagreement_index` (the square
root of the stored `diSq`) is the population standard deviation — spec-side
characterisation `specPopVar`, ddof = 0 — of the values of the percentile
columns that are present in the source file and non-null for the row
(`rowPctVals`, which equals the values of `player_pct_cols`); it is null
exactly when no such value exists, and 0 when exactly one exists. -/
theorem C1_disagreementIndex (t : Table) (lr : LRow) (hlr : lr ∈ load_df t) :
    (lr.diSq.map (fun q : ℚ => Real.sqrt (q : ℝ))
        = if rowPctVals t.cols lr.row = [] then none
          else some (Real.sqrt ((specPopVar (rowPctVals t.cols lr.row) : ℚ)
            : ℝ))) ∧
    (rowPctVals t.cols lr.row = [] ↔ lr.diSq = none) ∧
    ((rowPctVals t.cols lr.row).length = 1 →
      lr.diSq = some 0 ∧
      lr.diSq.map (fun q : ℚ => Real.sqrt (q : ℝ)) = some 0) ∧
    rowPctVals t.cols lr.row
      = (player_pct_cols t.cols lr.row).map (keyOf lr.row) := by
  obtain ⟨r0, _, rfl⟩ := List.mem_map.1 hlr
  have hrow : (loadRow t.cols r0).row = r0 := rfl
  have hdi : (loadRow t.cols r0).diSq = pandasVarP (rowPctVals t.cols r0) :=
    rfl
  rw [hrow, hdi]
  refine ⟨?_, ?_, ?_, rowPctVals_eq_map_key t.cols r0⟩
  · by_cases hxs : rowPctVals t.cols r0 = []
    · simp [hxs, pandasVarP]
    · rw [pandasVarP_eq_specPopVar _ hxs, if_neg hxs, Option.map_some']
  · constructor
    · intro hxs; simp [pandasVarP, hxs]
    · intro hnone
      by_contra hxs
      rw [pandasVarP_eq_specPopVar _ hxs] at hnone
      exact Option.some_ne_none _ hnone
  · intro hlen
    obtain ⟨x, hx⟩ := List.length_eq_one.1 hlen
    rw [hx]
    have h0 : pandasVarP [x] = some 0 := by
      rw [pandasVarP, if_neg (by simp)]
      norm_num [popMean]
    refine ⟨h0, ?_⟩
    rw [h0, Option.map_some']
    norm_num

/-- C1 witness: row A of the example table has exactly one available
percentile value, and its stored variance is 0 (so its standard deviation is
0). -/
theorem C1_disagreementIndex_witness :
    (loadRow PCT_METRICS rowA).diSq = some 0 :=
  ((C1_disagreementIndex exTable (loadRow PCT_METRICS rowA)
    (List.Mem.head _)).2.2.1 (by decide)).1

lemma foldl_maxStep_first {α : Type} (key : α → ℚ) :
    ∀ (xs : List α) (b : α),
      ∃ l1 l2,
        b :: xs = l1 ++ xs.foldl (maxStep key) b :: l2 ∧
        (∀ a ∈ l1, key a < key (xs.foldl (maxStep key) b)) ∧
        (∀ a ∈ l2, key a ≤ key (xs.foldl (maxStep key) b))
  | [], b => ⟨[], [], rfl, by simp, by simp⟩
  | a :: xs, b => by
    by_cases hba : key b < key a
    · have hfold : (a :: xs).foldl (maxStep key) b = xs.foldl (maxStep key) a := by
        simp [List.foldl_cons, maxStep, hba]
      obtain ⟨l1, l2, he, h1, h2⟩ := foldl_maxStep_first key xs a
      rw [hfold]
      have hbm : key b < key (xs.foldl (maxStep key) a) := by
        cases l1 with
        | nil =>
          have ha : a = xs.foldl (maxStep key) a := by
            have := congrArg List.head? he
            simpa using this
          exact ha ▸ hba
        | cons c l1' =>
          have hac : a = c := by
            have := congrArg List.head? he
            simpa using this
          exact lt_trans hba (h1 a (hac ▸ List.mem_cons_self c l1'))
      refine ⟨b :: l1, l2, ?_, ?_, h2⟩
      · rw [List.cons_append, ← he]
      · intro x hx
        rcases List.mem_cons.1 hx with hxb | hxl
        · exact hxb ▸ hbm
        · exact h1 x hxl
    · have hfold : (a :: xs).foldl (maxStep key) b = xs.foldl (maxStep key) b := by
        simp [List.foldl_cons, maxStep, hba]
      have hab : key a ≤ key b := not_lt.1 hba
      obtain ⟨l1, l2, he, h1, h2⟩ := foldl_maxStep_first key xs b
      rw [hfold]
      cases l1 with
      | nil =>
        have hb : b = xs.foldl (maxStep key) b := by
          have := congrArg List.head? he
          simpa using this
        have hxs : xs = l2 := by
          have := congrArg List.tail he
          simpa using this
        refine ⟨[], a :: xs, by simpa using hb, by simp, ?_⟩
        intro x hx
        rcases List.mem_cons.1 hx with hxa | hxl
        · exact hxa ▸ (hab.trans (le_of_eq (congrArg key hb)))
        · exact h2 x (hxs ▸ hxl)
      | cons c l1' =>
        have hbc : b = c := by
          have := congrArg List.head? he
          simpa using this
        have hxs : xs = l1' ++ xs.foldl (maxStep key) b :: l2 := by
          have := congrArg List.tail he
          simpa using this
        have hbm : key b < key (xs.foldl (maxStep key) b) :=
          h1 b (hbc ▸ List.mem_cons_self c l1')
        refine ⟨b :: a :: l1', l2, ?_, ?_, h2⟩
        · rw [List.cons_append, List.cons_append, ← hxs]
        · intro x hx
          rcases List.mem_cons.1 hx with hxb | hx'
          · exact hxb ▸ hbm
          · rcases List.mem_cons.1 hx' with hxa | hxl
            · exact hxa ▸ (lt_of_le_of_lt hab hbm)
            · exact h1 x (hbc ▸ List.mem_cons.2 (Or.inr hxl))

lemma foldl_minStep_first {α : Type} (key : α → ℚ) :
    ∀ (xs : List α) (b : α),
      ∃ l1 l2,
        b :: xs = l1 ++ xs.foldl (minStep key) b :: l2 ∧
        (∀ a ∈ l1, key (xs.foldl (minStep key) b) < key a) ∧
        (∀ a ∈ l2, key (xs.foldl (minStep key) b) ≤ key a)
  | [], b => ⟨[], [], rfl, by simp, by simp⟩
  | a :: xs, b => by
    by_cases hba : key a < key b
    · have hfold : (a :: xs).foldl (minStep key) b = xs.foldl (minStep key) a := by
        simp [List.foldl_cons, minStep, hba]
      obtain ⟨l1, l2, he, h1, h2⟩ := foldl_minStep_first key xs a
      rw [hfold]
      have hbm : key (xs.foldl (minStep key) a) < key b := by
        cases l1 with
        | nil =>
          have ha : a = xs.foldl (minStep key) a := by
            have := congrArg List.head? he
            simpa using this
          exact ha ▸ hba
        | cons c l1' =>
          have hac : a = c := by
            have := congrArg List.head? he
            simpa using this
          exact lt_trans (h1 a (hac ▸ List.mem_cons_self c l1')) hba
      refine ⟨b :: l1, l2, ?_, ?_, h2⟩
      · rw [List.cons_append, ← he]
      · intro x hx
        rcases List.mem_cons.1 hx with hxb | hxl
        · exact hxb ▸ hbm
        · exact h1 x hxl
    · have hfold : (a :: xs).foldl (minStep key) b = xs.foldl (minStep key) b := by
        simp [List.foldl_cons, minStep, hba]
      have hab : key b ≤ key a := not_lt.1 hba
      obtain ⟨l1, l2, he, h1, h2⟩ := foldl_minStep_first key xs b
      rw [hfold]
      cases l1 with
      | nil =>
        have hb : b = xs.foldl (minStep key) b := by
          have := congrArg List.head? he
          simpa using this
        have hxs : xs = l2 := by
          have := congrArg List.tail he
          simpa using this
        refine ⟨[], a :: xs, by simpa using hb, by simp, ?_⟩
        intro x hx
        rcases List.mem_cons.1 hx with hxa | hxl
        · exact hxa ▸ ((le_of_eq (congrArg key hb.symm)).trans hab)
        · exact h2 x (hxs ▸ hxl)
      | cons c l1' =>
        have hbc : b = c := by
          have := congrArg List.head? he
          simpa using this
        have hxs : xs = l1' ++ xs.foldl (minStep key) b :: l2 := by
          have := congrArg List.tail he
          simpa using this
        have hbm : key (xs.foldl (minStep key) b) < key b :=
          h1 b (hbc ▸ List.mem_cons_self c l1')
        refine ⟨b :: a :: l1', l2, ?_, ?_, h2⟩
        · rw [List.cons_append, List.cons_append, ← hxs]
        · intro x hx
          rcases List.mem_cons.1 hx with hxb | hx'
          · exact hxb ▸ hbm
          · rcases List.mem_cons.1 hx' with hxa | hxl
            · exact hxa ▸ (lt_of_lt_of_le hbm hab)
            · exact h1 x (hbc ▸ List.mem_cons.2 (Or.inr hxl))

/-- C2: on any record with a non-empty list of available percentile metrics
(in canonical order), `best` is the first metric attaining the maximum
percentile value and `worst` the first attaining the minimum (ties broken by
canonical position: every metric strictly earlier has a strictly smaller,
resp. larger, value); both belong to the available list, and when all
available values are equal both equal the first available metric. -/
theorem C2_bestWorst (cols : List Metric) (r : Row)
    (h : player_pct_cols cols r ≠ []) :
    ∃ b w,
      bestMetric r (player_pct_cols cols r) = some b ∧
      worstMetric r (player_pct_cols cols r) = some w ∧
      b ∈ player_pct_cols cols r ∧ w ∈ player_pct_cols cols r ∧
      (∀ m ∈ player_pct_cols cols r, keyOf r m ≤ keyOf r b) ∧
      (∀ m ∈ player_pct_cols cols r, keyOf r w ≤ keyOf r m) ∧
      (∃ l1 l2, player_pct_cols cols r = l1 ++ b :: l2 ∧
        ∀ m ∈ l1, keyOf r m < keyOf r b) ∧
      (∃ l1 l2, player_pct_cols cols r = l1 ++ w :: l2 ∧
        ∀ m ∈ l1, keyOf r w < keyOf r m) ∧
      ((∀ m ∈ player_pct_cols cols r, ∀ m' ∈ player_pct_cols cols r,
          keyOf r m = keyOf r m') →
        (player_pct_cols cols r).head? = some b ∧
        (player_pct_cols cols r).head? = some w) := by
  obtain ⟨x, xs, hav⟩ := List.exists_cons_of_ne_nil h
  rw [hav]
  obtain ⟨l1, l2, he, h1, h2⟩ := foldl_maxStep_first (keyOf r) xs x
  obtain ⟨k1, k2, ke, k1h, k2h⟩ := foldl_minStep_first (keyOf r) xs x
  set b := xs.foldl (maxStep (keyOf r)) x with hbdef
  set w := xs.foldl (minStep (keyOf r)) x with hwdef
  have hbav : bestMetric r (x :: xs) = some b := rfl
  have hwav : worstMetric r (x :: xs) = some w := rfl
  have hbmem : b ∈ x :: xs := by
    rw [he]; exact List.mem_append_right _ (List.mem_cons_self _ _)
  have hwmem : w ∈ x :: xs := by
    rw [ke]; exact List.mem_append_right _ (List.mem_cons_self _ _)
  have hbub : ∀ m ∈ x :: xs, keyOf r m ≤ keyOf r b := by
    intro m hm
    rw [he] at hm
    rcases List.mem_append.1 hm with hm1 | hm2
    · exact le_of_lt (h1 m hm1)
    · rcases List.mem_cons.1 hm2 with hmb | hml
      · exact le_of_eq (congrArg (keyOf r) hmb)
      · exact h2 m hml
  have hwlb : ∀ m ∈ x :: xs, keyOf r w ≤ keyOf r m := by
    intro m hm
    rw [ke] at hm
    rcases List.mem_append.1 hm with hm1 | hm2
    · exact le_of_lt (k1h m hm1)
    · rcases List.mem_cons.1 hm2 with hmw | hml
      · exact le_of_eq (congrArg (keyOf r) hmw.symm)
      · exact k2h m hml
  refine ⟨b, w, hbav, hwav, hbmem, hwmem, hbub, hwlb,
    ⟨l1, l2, he, h1⟩, ⟨k1, k2, ke, k1h⟩, ?_⟩
  intro hall
  constructor
  · cases l1 with
    | nil => rw [he]; rfl
    | cons c l1' =>
      exfalso
      have hcav : c ∈ x :: xs := by
        rw [he]; exact List.mem_append_left _ (List.mem_cons_self _ _)
      exact absurd (hall c hcav b hbmem)
        (ne_of_lt (h1 c (List.mem_cons_self _ _)))
  · cases k1 with
    | nil => rw [ke]; rfl
    | cons c k1' =>
      exfalso
      have hcav : c ∈ x :: xs := by
        rw [ke]; exact List.mem_append_left _ (List.mem_cons_self _ _)
      exact absurd (hall w hwmem c hcav)
        (ne_of_lt (k1h c (List.mem_cons_self _ _)))

/-- C2 witness: on example row A (one available metric), `best` and `worst`
are defined. -/
theorem C2_bestWorst_witness :
    ∃ b w, bestMetric rowA (player_pct_cols PCT_METRICS rowA) = some b ∧
      worstMetric rowA (player_pct_cols PCT_METRICS rowA) = some w := by
  obtain ⟨b, w, hb, hw, _⟩ := C2_bestWorst PCT_METRICS rowA (by decide)
  exact ⟨b, w, hb, hw⟩

/-- C3: the "(All)"-filtered leaderboard returns at most `n` rows, every
returned row has a non-null value for the sort metric (null rows were dropped
before sorting), the rows are in non-increasing order of the sort metric, and
every returned row is a row of the input table. -/
theorem C3_leaderboardSorted (rows : List LRow) (m : Metric) (n : Nat) :
    (leaderboard rows "(All)" m n).length ≤ n ∧
    (∀ r ∈ leaderboard rows "(All)" m n, (r.row.pct m).isSome) ∧
    (leaderboard rows "(All)" m n).Pairwise
      (fun a b => keyOf b.row m ≤ keyOf a.row m) ∧
    (∀ r ∈ leaderboard rows "(All)" m n, r ∈ rows) := by
  have hmem : ∀ r ∈ leaderboard rows "(All)" m n,
      r ∈ (filterByTeam rows "(All)").filter
        (fun r => (r.row.pct m).isSome) := by
    intro r hr
    simp only [leaderboard, sortValuesDesc] at hr
    have h1 := List.mem_of_mem_take hr
    rw [List.mem_reverse, List.mem_insertionSort, List.mem_reverse] at h1
    exact h1
  refine ⟨?_, ?_, ?_, ?_⟩
  · simp only [leaderboard, List.length_take]
    exact min_le_left _ _
  · intro r hr
    exact (List.mem_filter.1 (hmem r hr)).2
  · letI : IsTotal LRow (fun a b => keyOf a.row m ≤ keyOf b.row m) :=
      ⟨fun a b => le_total _ _⟩
    letI : IsTrans LRow (fun a b => keyOf a.row m ≤ keyOf b.row m) :=
      ⟨fun a b c hab hbc => le_trans hab hbc⟩
    have hs := List.sorted_insertionSort
      (fun a b => keyOf a.row m ≤ keyOf b.row m)
      ((filterByTeam rows "(All)").filter
        (fun r => (r.row.pct m).isSome)).reverse
    have hrev : ((List.insertionSort
        (fun a b => keyOf a.row m ≤ keyOf b.row m)
        ((filterByTeam rows "(All)").filter
          (fun r => (r.row.pct m).isSome)).reverse).reverse).Pairwise
        (fun a b => keyOf b.row m ≤ keyOf a.row m) := by
      rw [List.pairwise_reverse]
      exact hs
    simp only [leaderboard, sortValuesDesc]
    exact List.Pairwise.sublist (List.take_sublist _ _) hrev
  · intro r hr
    exact mem_filterByTeam_subset (List.mem_filter.1 (hmem r hr)).1

/-- C3 witness: on a concrete table, a returned leaderboard row has a
non-null sort metric. -/
theorem C3_leaderboardSorted_witness : ((lrB.row.pct Metric.oaa).isSome) :=
  (C3_leaderboardSorted exL Metric.oaa 2).2.1 lrB (by decide)

/-- C4: leaderboard ties keep their encounter order: on the spec's example
table — rows (A, TeamX, OAA pct 90), (B, TeamX, OAA pct 90),
(C, TeamY, OAA pct 40) in that order — `leaderboard(T, "(All)", OAA, 2)`
returns [A, B] in the original relative order (pandas' descending sort is a
double reversal around a stable ascending argsort, hence stable), and C is
excluded only by the top-N cut: with `n = 3` the full order is [A, B, C]. -/
theorem C4_leaderboardTies :
    (leaderboard (load_df exTable) "(All)" Metric.oaa 2).map
      (fun r => r.row.player) = ["A", "B"] ∧
    (leaderboard (load_df exTable) "(All)" Metric.oaa 3).map
      (fun r => r.row.player) = ["A", "B", "C"] := by decide

/-- C7: `resolvePlayer` returns the first row whose player field equals the
given name (every strictly earlier row has a different player), and fails
(returns `none`, the embedding of the IndexError / `PlayerNotFound`) exactly
when no row of the table matches. -/
theorem C7_resolvePlayer (rows : List LRow) (name : String) :
    (∀ r, resolvePlayer rows name = some r →
      r.row.player = name ∧
      ∃ l1 l2, rows = l1 ++ r :: l2 ∧ ∀ x ∈ l1, x.row.player ≠ name) ∧
    (resolvePlayer rows name = none ↔ ∀ r ∈ rows, r.row.player ≠ name) := by
  induction rows with
  | nil =>
    exact ⟨fun r hr => by simp [resolvePlayer] at hr, by simp [resolvePlayer]⟩
  | cons a rows ih =>
    by_cases ha : a.row.player = name
    · have hres : resolvePlayer (a :: rows) name = some a := by
        simp [resolvePlayer, List.filter_cons, ha]
      constructor
      · intro r hr
        rw [hres] at hr
        obtain rfl : a = r := by injection hr
        exact ⟨ha, [], rows, rfl, by simp⟩
      · rw [hres]
        constructor
        · intro h; exact absurd h (Option.some_ne_none a)
        · intro hall; exact absurd ha (hall a (List.mem_cons_self _ _))
    · have hres : resolvePlayer (a :: rows) name = resolvePlayer rows name := by
        simp [resolvePlayer, List.filter_cons, ha]
      constructor
      · intro r hr
        rw [hres] at hr
        obtain ⟨hp, l1, l2, he, hl1⟩ := ih.1 r hr
        refine ⟨hp, a :: l1, l2, by rw [List.cons_append, he], ?_⟩
        intro x hx
        rcases List.mem_cons.1 hx with hxa | hxl
        · exact hxa ▸ ha
        · exact hl1 x hxl
      · rw [hres]
        constructor
        · intro hnone r hr
          rcases List.mem_cons.1 hr with rfl | hrl
          · exact ha
          · exact (ih.2.mp hnone) r hrl
        · intro hall
          exact ih.2.mpr (fun r hr => hall r (List.mem_cons.2 (Or.inr hr)))

/-- C7 witness: on the concrete example table, resolving an absent name
fails. -/
theorem C7_resolvePlayer_witness : resolvePlayer exL "Zed" = none :=
  (C7_resolvePlayer exL "Zed").2.mpr (by decide)

/-- C8: after load, no operation changes the table: team filtering returns a
sublist of the loaded table; every leaderboard row is a row of the loaded
table, and its `disagreement_index` (variance `diSq`) is exactly the value
computed at load from that row's percentile cells; and the resolved player
row is a row of the loaded table.  (`bestMetric`/`worstMetric` consume only
the row and return a metric identifier, so they cannot touch the table.) -/
theorem C8_noMutation (t : Table) (z : String) (m : Metric) (n : Nat)
    (name : String) :
    (filterByTeam (load_df t) z).Sublist (load_df t) ∧
    (∀ r ∈ leaderboard (load_df t) z m n,
      r ∈ load_df t ∧ r.diSq = pandasVarP (rowPctVals t.cols r.row)) ∧
    (∀ r, resolvePlayer (filterByTeam (load_df t) z) name = some r →
      r ∈ load_df t) := by
  have hsub : ∀ (rows : List LRow) (z' : String),
      (filterByTeam rows z').Sublist rows := by
    intro rows z'
    by_cases hz : z' = "(All)" <;> simp [filterByTeam, hz, List.filter_sublist]
  have hlead : ∀ r ∈ leaderboard (load_df t) z m n, r ∈ load_df t := by
    intro r hr
    simp only [leaderboard, sortValuesDesc] at hr
    have h1 := List.mem_of_mem_take hr
    rw [List.mem_reverse, List.mem_insertionSort, List.mem_reverse] at h1
    exact (hsub _ z).subset (List.mem_filter.1 h1).1
  refine ⟨hsub _ z, ?_, ?_⟩
  · intro r hr
    refine ⟨hlead r hr, ?_⟩
    obtain ⟨r0, _, rfl⟩ := List.mem_map.1 (hlead r hr)
    rfl
  · intro r hr
    rcases hfl : (filterByTeam (load_df t) z).filter
        (fun x => x.row.player == name) with _ | ⟨a, l⟩
    · rw [resolvePlayer, hfl] at hr
      simp at hr
    · rw [resolvePlayer, hfl, List.head?_cons] at hr
      have har : a = r := by injection hr
      have hmemf : a ∈ (filterByTeam (load_df t) z).filter
          (fun x => x.row.player == name) := by
        rw [hfl]; exact List.mem_cons_self _ _
      exact har ▸ (hsub _ z).subset (List.mem_filter.1 hmemf).1

/-- C8 witness: resolving "A" on the loaded example table yields a loaded
row. -/
theorem C8_noMutation_witness : loadRow PCT_METRICS rowA ∈ load_df exTable :=
  (C8_noMutation exTable "(All)" Metric.oaa 5 "A").2.2
    (loadRow PCT_METRICS rowA) rfl

/-- C9: loading is deterministic in the season key: with the memoising cache
(`@st.cache_data`), a first load computes `load_df` of the file contents, and
a second load of the same key returns a row-for-row identical table. -/
theorem C9_loadDeterministic (files : String → Table) (k : String) :
    (load_cached files [] k).1 = load_df (files k) ∧
    (load_cached files (load_cached files [] k).2 k).1
      = (load_cached files [] k).1 ∧
    ∀ i : Nat,
      ((load_cached files (load_cached files [] k).2 k).1.get? i
        = (load_cached files [] k).1.get? i) := by
  have h1 : load_cached files [] k
      = (load_df (files k), [(k, load_df (files k))]) := rfl
  have h2 : (load_cached files [(k, load_df (files k))] k).1
      = load_df (files k) := by
    simp [load_cached, List.lookup]
  refine ⟨rfl, ?_, ?_⟩
  · rw [h1]; exact h2
  · intro i; rw [h1, h2]

/-- C10: every selectable player name (the options list is built from the
same team-filtered candidates table used for resolution) resolves to a row:
the empty-selection branch of `.iloc[0]` is unreachable. -/
theorem C10_selectorResolves (rows : List LRow) (z : String) (p : String)
    (h : p ∈ playerOptions (filterByTeam rows z)) :
    (resolvePlayer (filterByTeam rows z) p).isSome := by
  rw [playerOptions, List.mem_insertionSort, List.mem_dedup] at h
  obtain ⟨r, hrc, hrp⟩ := List.mem_map.1 h
  have hrf : r ∈ (filterByTeam rows z).filter (fun x => x.row.player == p) :=
    List.mem_filter.2 ⟨hrc, by simp [hrp]⟩
  have hne : (filterByTeam rows z).filter (fun x => x.row.player == p)
      ≠ [] := List.ne_nil_of_mem hrf
  rw [resolvePlayer]
  simp only [List.head?_isSome]
  exact hne

/-- C10 witness: the selectable name "A" of the example table resolves. -/
theorem C10_selectorResolves_witness :
    (resolvePlayer (filterByTeam exL1 "(All)") "A").isSome :=
  C10_selectorResolves exL1 "(All)" "A" (by decide)

end DefMetrics
